import Mathlib

/-!
Verification of `domain/services/interaction_service.py`
(`InteractionService.get_interactions`): a shallow embedding of the
resolution → pairing → filtering → assembly → pagination pipeline,
followed by theorems settling the specification claims.

Modelling conventions:
* Python `None`-able string attributes become `Option String`; Python
  truthiness of such a field (`None` and `""` are falsy) is `strTruthy`.
* The repository collaborator (an external data store) is a structure of
  pure functions: each batch call becomes a function of the batch returning
  a map, modelled as `String → Option _`.
* Python dicts keyed by strings whose insertion order matters
  (`subs_to_items`, built with `setdefault`) become association lists with
  explicit `setdefault`-append semantics; dicts built by comprehension
  (`pair_to_data`) are modelled by last-wins lookup over the record list.
* `uuid.uuid4()` is modelled as a fresh-identifier supply: the i-th row
  assembled in one request receives identifier `i`.
* Helper functions that live in `utils/helpers.py` and `domain/models.py`
  (files not present in the sources) are modelled from the specification
  and carry a doc comment saying so.
-/

/-- Truthiness of an optional string attribute exactly as Python evaluates
it in an `if`: `None` and the empty string are falsy. -/
def strTruthy : Option String → Bool
  | none => false
  | some s => !(s == "")

/-- One medication reference (`DrugItem` in `domain/models.py`, modelled
from the spec data model: optional free-text name, optional substance code,
optional trade-unit code, mutable hierarchy codes filled by enrichment). -/
structure DrugItem where
  name : Option String
  subs_code : Option String
  tpu_code : Option String
  hier_codes : List String
deriving DecidableEq

/-- The request payload: current and historical entry lists. -/
structure DrugPayload where
  drug_currents : List DrugItem
  drug_histories : List DrugItem
deriving DecidableEq

/-- Detail record for one code (`detail_map` values in the source): the
substance codes the code maps to plus hierarchy display codes. -/
structure DetailRecord where
  subs_codes : List String
  hier_codes : List String
deriving DecidableEq

/-- One precomputed interaction fact as returned by
`repo.fetch_contrasts`, keyed by the ordered substance pair
(`sub1_id`, `sub2_id`) as stored at the source. -/
structure InteractionRecord where
  sub1_id : String
  sub1_name : String
  sub2_id : String
  sub2_name : String
  interaction_detail_en : String
  interaction_detail_th : String
  onset : String
  severity : String
  documentation : String
  significance : String
  management : String
  discussion : String
  reference : String
deriving DecidableEq

/-- Modelled from the spec: `codes_from_item` lives in `utils/helpers.py`,
which is absent from the sources. Spec 4.2: the ordered codes an entry can
be looked up by — explicit substance code, trade-unit code, then any
already-known hierarchy code; a `None` or empty attribute contributes
nothing. -/
def codes_from_item (it : DrugItem) : List String :=
  (if strTruthy it.subs_code then [it.subs_code.getD ""] else [])
    ++ (if strTruthy it.tpu_code then [it.tpu_code.getD ""] else [])
    ++ it.hier_codes

/-- Step 1 of `get_interactions`: the batch of names sent to
`repo.resolve_names` — names of history entries that have no extracted
code and a truthy name, in list order. -/
def names_to_resolve (histories : List DrugItem) : List String :=
  histories.filterMap fun it =>
    if (codes_from_item it).isEmpty && strTruthy it.name then it.name else none

/-- Step 1 of `get_interactions`, the mutation: when the batch is nonempty,
every history entry whose `name` is a key of the resolution result gets its
`subs_code` overwritten with the mapped code; all other entries are kept.
`resolve_names ns` is the store's result map for the query batch `ns`. -/
def resolve_step (resolve_names : List String → String → Option String)
    (histories : List DrugItem) : List DrugItem :=
  if (names_to_resolve histories).isEmpty then histories
  else
    histories.map fun it =>
      match it.name with
      | none => it
      | some n =>
        match resolve_names (names_to_resolve histories) n with
        | some sc => { it with subs_code := some sc }
        | none => it

/-- The whole name-resolution phase on the payload: the source loops only
over `payload.drug_histories`; `payload.drug_currents` is not touched. -/
def resolve_phase (resolve_names : List String → String → Option String)
    (payload : DrugPayload) : DrugPayload :=
  { payload with drug_histories := resolve_step resolve_names payload.drug_histories }

/-- Substance codes a detail map associates to one code; an absent code
yields the empty list (`detail_map.get(code)` returning `None`). -/
def subsOf (dm : String → Option DetailRecord) (c : String) : List String :=
  match dm c with
  | some d => d.subs_codes
  | none => []

/-- Step 4 inner loop: the substance codes of the FIRST extracted code of
the entry whose detail record exists and has a nonempty `subs_codes` list
(`break` after the first hit); `[]` when no code qualifies. -/
def winning_subs (dm : String → Option DetailRecord) (it : DrugItem) : List String :=
  ((codes_from_item it).findSome? fun c =>
    if (subsOf dm c).isEmpty then none else some (subsOf dm c)).getD []

/-- The `subs_to_items` mapping: substance id → contributing entries, as an
insertion-ordered association list (a Python dict preserves insertion
order). -/
abbrev SubsIndex := List (String × List DrugItem)

/-- Keys of the index in insertion order. -/
def index_keys (m : SubsIndex) : List String := m.map Prod.fst

/-- Lookup with default `[]`, i.e. `subs_to_items.get(sid, [])`. -/
def lookup_index (m : SubsIndex) (sid : String) : List DrugItem :=
  ((m.find? fun p => p.1 == sid).map Prod.snd).getD []

/-- One `subs_to_items.setdefault(sid, []).append(itm)` on the
association-list model of the dict. -/
def setdefault_append (m : SubsIndex) (sid : String) (itm : DrugItem) : SubsIndex :=
  if m.any fun p => p.1 == sid then
    m.map fun p => if p.1 == sid then (p.1, p.2 ++ [itm]) else p
  else m ++ [(sid, [itm])]

/-- Step 4 body for one entry: append the entry under every substance id of
its winning code (no winning code appends nothing). -/
def index_item (dm : String → Option DetailRecord) (m : SubsIndex) (itm : DrugItem) :
    SubsIndex :=
  (winning_subs dm itm).foldl (fun m sid => setdefault_append m sid itm) m

/-- Step 4: build `subs_to_items` over the concatenation of the current and
historical entry lists, in order. -/
def subs_to_items (dm : String → Option DetailRecord) (items : List DrugItem) : SubsIndex :=
  items.foldl (index_item dm) []

/-- `itertools.combinations(l, 2)` in its exact emission order. -/
def combos : List String → List (String × String)
  | [] => []
  | x :: xs => (xs.map fun y => (x, y)) ++ combos xs

/-- Step 5: `sorted(subs_to_items.keys())`. -/
def unique_sids (m : SubsIndex) : List String :=
  (index_keys m).mergeSort (· ≤ ·)

/-- Step 5: the candidate pair list `combinations(unique_sids, 2)`. -/
def gen_pairs (m : SubsIndex) : List (String × String) :=
  combos (unique_sids m)

/-- Step 5.5: all truthy trade-unit codes across both groups, in order,
duplicates kept. -/
def collect_tpu_codes (items : List DrugItem) : List String :=
  items.filterMap fun it => if strTruthy it.tpu_code then it.tpu_code else none

/-- Step 5.7 inner test for one entry: a truthy trade-unit code whose
external-status lookup yields `true`; a code absent from the status map
defaults to `false` (`external_status_map.get(code, False)`). -/
def item_external (esm : String → Option Bool) (it : DrugItem) : Bool :=
  match it.tpu_code with
  | none => false
  | some c => if c == "" then false else (esm c).getD false

/-- All contributing entries of both sides of a pair
(`items1 + items2` in the source). -/
def pair_items (m : SubsIndex) (p : String × String) : List DrugItem :=
  lookup_index m p.1 ++ lookup_index m p.2

/-- Step 5.7: keep exactly the pairs none of whose contributing entries is
flagged external. -/
def filtered_pairs (esm : String → Option Bool) (m : SubsIndex)
    (prs : List (String × String)) : List (String × String) :=
  prs.filter fun p => !((pair_items m p).any (item_external esm))

/-- Does a record's stored key equal the given ordered pair. -/
def record_key_matches (r : InteractionRecord) (k : String × String) : Bool :=
  r.sub1_id == k.1 && r.sub2_id == k.2

/-- Step 6: the dict `{(r.sub1_id, r.sub2_id): r for r in raw_records}`
as a lookup — on duplicate keys the LAST record of the batch wins, as in a
Python dict comprehension. -/
def pair_to_data (records : List InteractionRecord) (k : String × String) :
    Option InteractionRecord :=
  records.reverse.find? (record_key_matches · k)

/-- Step 7 lookup: `pair_to_data.get((sid1, sid2)) or
pair_to_data.get((sid2, sid1))` — a record is a nonempty dict, hence truthy,
so Python `or` behaves as `Option` alternation here. -/
def lookup_pair (records : List InteractionRecord) (s1 s2 : String) :
    Option InteractionRecord :=
  match pair_to_data records (s1, s2) with
  | some r => some r
  | none => pair_to_data records (s2, s1)

/-- The per-role coding fields of one entry in an output row. -/
structure RoleFields where
  subs_code : Option String
  tpu_code : Option String
  hier_codes : List String
deriving DecidableEq

/-- Modelled from the spec: `fill_codes` lives in `utils/helpers.py`,
absent from the sources. Spec 4.7: a per-role field-extraction contract
producing the entry's own coding fields; the role argument only selects the
output field names, so one extraction function serves both roles here. -/
def fill_codes (it : DrugItem) : RoleFields :=
  ⟨it.subs_code, it.tpu_code, it.hier_codes⟩

/-- One output row (`ContrastItem` in `domain/models.py`, fields as
constructed at step 7 of the source). `ref_id` is the modelled fresh
identifier; substance display lists hold (code, name) elements. -/
structure ContrastItem where
  ref_id : Nat
  input_fields : RoleFields
  contrast_fields : RoleFields
  contrast_type : Nat
  interaction_detail_en : String
  interaction_detail_th : String
  onset : String
  severity : String
  documentation : String
  significance : String
  management : String
  discussion : String
  reference : String
  input_substances : List (String × String)
  contrast_substances : List (String × String)
deriving DecidableEq

/-- Step 7 row construction for one (record, input entry, contrast entry)
triple, given the fresh identifier `rid`. -/
def mk_row (rid : Nat) (rec : InteractionRecord) (in_item ct_item : DrugItem) :
    ContrastItem where
  ref_id := rid
  input_fields := fill_codes in_item
  contrast_fields := fill_codes ct_item
  contrast_type := 0
  interaction_detail_en := rec.interaction_detail_en
  interaction_detail_th := rec.interaction_detail_th
  onset := rec.onset
  severity := rec.severity
  documentation := rec.documentation
  significance := rec.significance
  management := rec.management
  discussion := rec.discussion
  reference := rec.reference
  input_substances := [(rec.sub1_id, rec.sub1_name)]
  contrast_substances := [(rec.sub2_id, rec.sub2_name)]

/-- Step 7 for one pair, before identifiers: no matching record contributes
nothing (`continue`); a record cross-joins every contributing entry of side
one against every contributing entry of side two, in loop order. -/
def pair_row_data (records : List InteractionRecord) (m : SubsIndex)
    (p : String × String) : List (InteractionRecord × DrugItem × DrugItem) :=
  match lookup_pair records p.1 p.2 with
  | none => []
  | some rec =>
    (lookup_index m p.1).flatMap fun a => (lookup_index m p.2).map fun b => (rec, a, b)

/-- Step 7: the assembled row list. Rows appear in the source's nested loop
order; the i-th row gets fresh identifier `i` (the model of
`uuid.uuid4()` as a fresh supply). -/
def assemble (records : List InteractionRecord) (m : SubsIndex)
    (fps : List (String × String)) : List ContrastItem :=
  ((fps.flatMap (pair_row_data records m)).enum).map fun e =>
    mk_row e.1 e.2.1 e.2.2.1 e.2.2.2

/-- Modelled from the spec: `enrich_items` lives in `utils/helpers.py`,
absent from the sources. Spec 4.3: for each entry, look up its extracted
codes in the fetched detail map (falling back to extra store queries,
`driver`, for gaps) and populate the entry's hierarchy codes with every
level found; entries with no matching detail keep what they had. Mutation
in place becomes a returned list of updated entries. -/
def enrich_items (driver : String → Option DetailRecord)
    (dm : String → Option DetailRecord) (items : List DrugItem) : List DrugItem :=
  items.map fun it =>
    let found := (codes_from_item it).foldl
      (fun acc c =>
        match dm c with
        | some d => acc ++ d.hier_codes
        | none =>
          match driver c with
          | some d => acc ++ d.hier_codes
          | none => acc)
      []
    { it with hier_codes := it.hier_codes ++ found.filter fun c => !(it.hier_codes.contains c) }

/-- The repository collaborator: each batch store call is a pure function
of its batch argument; map-valued results are `String → Option _`.
`driver` models the extra hierarchy-gap queries the enricher may issue. -/
structure DrugRepository where
  resolve_names : List String → String → Option String
  query_details : List String → String → Option DetailRecord
  driver : String → Option DetailRecord
  fetch_external_status : List String → String → Option Bool
  fetch_contrasts : List (String × String) → List InteractionRecord

/-- Step 2: the deduplicated union of codes extracted from both lists
(a Python set; only its membership reaches the store). -/
def all_codes (payload : DrugPayload) : List String :=
  (payload.drug_currents.flatMap codes_from_item
    ++ payload.drug_histories.flatMap codes_from_item).dedup

/-- Step 3: the detail map of one request — the store queried with the
code set collected after name resolution. -/
def pipeline_detail_map (repo : DrugRepository) (payload : DrugPayload) :
    String → Option DetailRecord :=
  repo.query_details (all_codes (resolve_phase repo.resolve_names payload))

/-- The two entry groups after resolution and enrichment, concatenated in
the source's iteration order (currents, then histories). -/
def pipeline_items (repo : DrugRepository) (payload : DrugPayload) : List DrugItem :=
  let payload1 := resolve_phase repo.resolve_names payload
  let dm := pipeline_detail_map repo payload
  enrich_items repo.driver dm payload1.drug_currents
    ++ enrich_items repo.driver dm payload1.drug_histories

/-- Step 4 of one request: the `subs_to_items` index. -/
def pipeline_index (repo : DrugRepository) (payload : DrugPayload) : SubsIndex :=
  subs_to_items (pipeline_detail_map repo payload) (pipeline_items repo payload)

/-- Steps 5–5.7 of one request: the externally filtered pair list. -/
def pipeline_filtered_pairs (repo : DrugRepository) (payload : DrugPayload) :
    List (String × String) :=
  filtered_pairs
    (repo.fetch_external_status (collect_tpu_codes (pipeline_items repo payload)))
    (pipeline_index repo payload)
    (gen_pairs (pipeline_index repo payload))

/-- Steps 1–7 of `get_interactions`: the full assembled row list of one
request, before pagination. -/
def assembled_rows (repo : DrugRepository) (payload : DrugPayload) : List ContrastItem :=
  assemble (repo.fetch_contrasts (pipeline_filtered_pairs repo payload))
    (pipeline_index repo payload)
    (pipeline_filtered_pairs repo payload)

/-- Pagination block of the response envelope. -/
structure Pagination where
  page : Nat
  row : Nat
  total : Nat
deriving DecidableEq

/-- Page payload of the response envelope. -/
structure PageResponse where
  pagination : Pagination
  data : List ContrastItem
deriving DecidableEq

/-- The response envelope returned by `get_interactions`. -/
structure DrugsResponse where
  status : Bool
  code : Nat
  message : String
  data : PageResponse
deriving DecidableEq

/-- `InteractionService.get_interactions`: assemble the rows, slice
`rows[(page-1)*row : (page-1)*row + row]` (Python slicing clamps), and wrap
in the constant-status envelope. -/
def get_interactions (repo : DrugRepository) (payload : DrugPayload)
    (page : Nat) (row : Nat) : DrugsResponse :=
  let rows := assembled_rows repo payload
  let total := rows.length
  let start := (page - 1) * row
  let page_data := (rows.drop start).take row
  { status := true
    code := 200
    message := "get success"
    data :=
      { pagination := { page := page, row := page_data.length, total := total }
        data := page_data } }

/-! Concrete fixtures used by counterexamples and witnesses. -/

/-- A concrete store: one detail record under code `"A"` mapping to the two
substance ids `"sA"` and `"sB"`, no external flags, and a contrast record
echoing each queried pair. -/
def repoW : DrugRepository where
  resolve_names := fun _ _ => none
  query_details := fun _ c => if c == "A" then some ⟨["sA", "sB"], []⟩ else none
  driver := fun _ => none
  fetch_external_status := fun _ _ => none
  fetch_contrasts := fun ps => ps.map fun p =>
    ⟨p.1, "name1", p.2, "name2", "en", "th", "on", "sev", "doc", "sig", "man", "disc", "ref"⟩

/-- One concrete entry carrying only the trade-unit code `"A"`. -/
def itemW : DrugItem := ⟨some "para", none, some "A", []⟩

/-- A concrete payload with one current entry and no history. -/
def payloadW : DrugPayload := ⟨[itemW], []⟩

/-- A concrete interaction record keyed `("sA", "sB")`. -/
def recW : InteractionRecord :=
  ⟨"sA", "n1", "sB", "n2", "en", "th", "on", "sev", "doc", "sig", "man", "disc", "ref"⟩

/-! Claim theorems. -/

/-- C10: for every request on which no store call raises (store calls are
total functions in this embedding), `get_interactions` returns an envelope
with `status = True`, `code = 200` and `message = "get success"`, whatever
the assembled data — the envelope fields never signal emptiness or
degradation. -/
theorem C10_constant_envelope (repo : DrugRepository) (payload : DrugPayload)
    (page row : Nat) :
    (get_interactions repo payload page row).status = true ∧
    (get_interactions repo payload page row).code = 200 ∧
    (get_interactions repo payload page row).message = "get success" :=
  ⟨rfl, rfl, rfl⟩

/-- C2: for page ≥ 1 and row ≥ 1, `total` is the length of the full
assembled row list before slicing, the returned data is the slice
`[(page-1)*row, (page-1)*row + row)` clamped to the available rows, the
`row` field is the length of that slice — `min(requestedRow, total -
(page-1)*requestedRow)` clamped at 0 (truncated subtraction) — and a page
past the end yields the empty slice with `row = 0` rather than an error. -/
theorem C2_pagination (repo : DrugRepository) (payload : DrugPayload)
    (page row : Nat) (hp : 1 ≤ page) (hr : 1 ≤ row) :
    (get_interactions repo payload page row).data.pagination.total
        = (assembled_rows repo payload).length ∧
    (get_interactions repo payload page row).data.data
        = ((assembled_rows repo payload).drop ((page - 1) * row)).take row ∧
    (get_interactions repo payload page row).data.pagination.row
        = min row ((assembled_rows repo payload).length - (page - 1) * row) ∧
    ((assembled_rows repo payload).length ≤ (page - 1) * row →
      (get_interactions repo payload page row).data.data = [] ∧
      (get_interactions repo payload page row).data.pagination.row = 0) := by
  refine ⟨rfl, rfl, ?_, ?_⟩
  · show (((assembled_rows repo payload).drop ((page - 1) * row)).take row).length = _
    rw [List.length_take, List.length_drop]
  · intro h
    have hd : (assembled_rows repo payload).drop ((page - 1) * row) = [] :=
      List.drop_eq_nil_of_le h
    constructor
    · show ((assembled_rows repo payload).drop ((page - 1) * row)).take row = []
      rw [hd, List.take_nil]
    · show (((assembled_rows repo payload).drop ((page - 1) * row)).take row).length = 0
      rw [hd, List.take_nil, List.length_nil]

/-- Instance of `C2_pagination` at a concrete request (one current entry
producing one assembled row, first page of size ten). -/
theorem C2_pagination_witness :
    ((1 : Nat) ≤ 1 ∧ (1 : Nat) ≤ 10) ∧
    ((get_interactions repoW payloadW 1 10).data.pagination.total
        = (assembled_rows repoW payloadW).length ∧
    (get_interactions repoW payloadW 1 10).data.data
        = ((assembled_rows repoW payloadW).drop ((1 - 1) * 10)).take 10 ∧
    (get_interactions repoW payloadW 1 10).data.pagination.row
        = min 10 ((assembled_rows repoW payloadW).length - (1 - 1) * 10) ∧
    ((assembled_rows repoW payloadW).length ≤ (1 - 1) * 10 →
      (get_interactions repoW payloadW 1 10).data.data = [] ∧
      (get_interactions repoW payloadW 1 10).data.pagination.row = 0)) :=
  ⟨⟨by decide, by decide⟩,
    C2_pagination repoW payloadW 1 10 (by decide) (by decide)⟩

/-- The assembled rows carry the identifiers 0, 1, 2, … in emission
order. -/
theorem assemble_map_ref_id (records : List InteractionRecord) (m : SubsIndex)
    (fps : List (String × String)) :
    (assemble records m fps).map ContrastItem.ref_id
      = List.range (fps.flatMap (pair_row_data records m)).length := by
  unfold assemble
  rw [List.map_map]
  exact List.enum_map_fst _

/-- C9: within one response every assembled row's `refId` differs from
every other row's, both over the full assembled list and over the returned
page (rows from the same pair's cross-join included) — `uuid4` being
modelled as a fresh-identifier supply. -/
theorem C9_refid_unique (repo : DrugRepository) (payload : DrugPayload)
    (page row : Nat) :
    ((assembled_rows repo payload).map ContrastItem.ref_id).Nodup ∧
    (((get_interactions repo payload page row).data.data).map ContrastItem.ref_id).Nodup := by
  have h1 : ((assembled_rows repo payload).map ContrastItem.ref_id).Nodup := by
    unfold assembled_rows
    rw [assemble_map_ref_id]
    exact List.nodup_range _
  refine ⟨h1, ?_⟩
  have hsub : ((get_interactions repo payload page row).data.data).Sublist
      (assembled_rows repo payload) := by
    show (((assembled_rows repo payload).drop ((page - 1) * row)).take row).Sublist _
    exact (List.take_sublist _ _).trans (List.drop_sublist _ _)
  exact List.Nodup.sublist (hsub.map ContrastItem.ref_id) h1

/-- A record's stored key equals the ordered pair iff both components
agree. -/
theorem key_matches_iff (r : InteractionRecord) (k : String × String) :
    record_key_matches r k = true ↔ r.sub1_id = k.1 ∧ r.sub2_id = k.2 := by
  simp [record_key_matches]

/-- The comprehension-built dict holds a key iff some record of the batch
is stored under exactly that ordered key. -/
theorem pair_to_data_isSome (records : List InteractionRecord) (k : String × String) :
    (pair_to_data records k).isSome = true ↔
      ∃ r ∈ records, r.sub1_id = k.1 ∧ r.sub2_id = k.2 := by
  unfold pair_to_data
  rw [List.find?_isSome]
  constructor
  · rintro ⟨r, hr, hm⟩
    exact ⟨r, List.mem_reverse.mp hr, (key_matches_iff r k).mp hm⟩
  · rintro ⟨r, hr, hm⟩
    exact ⟨r, List.mem_reverse.mpr hr, (key_matches_iff r k).mpr hm⟩

/-- What a successful dict lookup returns: a record of the batch stored
under exactly the queried ordered key. -/
theorem pair_to_data_eq_some (records : List InteractionRecord) (k : String × String)
    (r0 : InteractionRecord) (h : pair_to_data records k = some r0) :
    r0 ∈ records ∧ r0.sub1_id = k.1 ∧ r0.sub2_id = k.2 := by
  unfold pair_to_data at h
  have h1 := List.find?_some h
  exact ⟨List.mem_reverse.mp (List.mem_of_find?_eq_some h),
    (key_matches_iff r0 k).mp h1⟩

/-- C4: whenever the returned batch holds a record stored under either
ordering of a pair, the assembler's lookup of that pair succeeds; and when
the batch holds exactly one record matching the unordered pair, the lookup
returns that record regardless of which of the two orderings the store
keyed it by. -/
theorem C4_bidirectional_lookup (records : List InteractionRecord) (s1 s2 : String)
    (r : InteractionRecord) (hr : r ∈ records)
    (hk : (r.sub1_id = s1 ∧ r.sub2_id = s2) ∨ (r.sub1_id = s2 ∧ r.sub2_id = s1)) :
    (lookup_pair records s1 s2).isSome = true ∧
    ((∀ r' ∈ records,
        ((r'.sub1_id = s1 ∧ r'.sub2_id = s2) ∨ (r'.sub1_id = s2 ∧ r'.sub2_id = s1)) →
        r' = r) →
      lookup_pair records s1 s2 = some r) := by
  unfold lookup_pair
  cases h12 : pair_to_data records (s1, s2) with
  | some r0 =>
    have hm0 : r0 ∈ records ∧ r0.sub1_id = s1 ∧ r0.sub2_id = s2 :=
      pair_to_data_eq_some records (s1, s2) r0 h12
    exact ⟨rfl, fun uniq => congrArg some (uniq r0 hm0.1 (Or.inl hm0.2))⟩
  | none =>
    have hnot : ¬(r.sub1_id = s1 ∧ r.sub2_id = s2) := by
      intro hq
      have hs : (pair_to_data records (s1, s2)).isSome = true :=
        (pair_to_data_isSome records (s1, s2)).mpr ⟨r, hr, hq⟩
      rw [h12] at hs
      exact absurd hs (by simp)
    have hk2 : r.sub1_id = s2 ∧ r.sub2_id = s1 := hk.resolve_left hnot
    have hs : (pair_to_data records (s2, s1)).isSome = true :=
      (pair_to_data_isSome records (s2, s1)).mpr ⟨r, hr, hk2⟩
    cases h21 : pair_to_data records (s2, s1) with
    | none =>
      rw [h21] at hs
      exact absurd hs (by simp)
    | some r0 =>
      have hm0 : r0 ∈ records ∧ r0.sub1_id = s2 ∧ r0.sub2_id = s1 :=
        pair_to_data_eq_some records (s2, s1) r0 h21
      exact ⟨rfl, fun uniq => congrArg some (uniq r0 hm0.1 (Or.inr hm0.2))⟩

/-- Instance of `C4_bidirectional_lookup`: the record keyed `("sA", "sB")`
is found by looking up the pair in the opposite orientation
`("sB", "sA")`. -/
theorem C4_bidirectional_lookup_witness :
    (recW ∈ [recW] ∧
      ((recW.sub1_id = "sB" ∧ recW.sub2_id = "sA") ∨
        (recW.sub1_id = "sA" ∧ recW.sub2_id = "sB"))) ∧
    ((lookup_pair [recW] "sB" "sA").isSome = true ∧
      ((∀ r' ∈ [recW],
          ((r'.sub1_id = "sB" ∧ r'.sub2_id = "sA") ∨
            (r'.sub1_id = "sA" ∧ r'.sub2_id = "sB")) →
          r' = recW) →
        lookup_pair [recW] "sB" "sA" = some recW)) :=
  ⟨⟨by decide, by decide⟩,
    C4_bidirectional_lookup [recW] "sB" "sA" recW (by decide) (by decide)⟩

/-! Name resolution (claim C1). -/

/-- Membership in the query batch: exactly the names of codeless,
non-empty-named history entries. -/
theorem names_to_resolve_mem (histories : List DrugItem) (n : String) :
    n ∈ names_to_resolve histories ↔
      ∃ it ∈ histories, codes_from_item it = [] ∧ it.name = some n ∧ n ≠ "" := by
  unfold names_to_resolve
  rw [List.mem_filterMap]
  constructor
  · rintro ⟨it, hit, hf⟩
    refine ⟨it, hit, ?_⟩
    by_cases hc : ((codes_from_item it).isEmpty && strTruthy it.name) = true
    · rw [if_pos hc] at hf
      have h1 := (Bool.and_eq_true _ _).mp hc
      have h2 := h1.2
      rw [hf] at h2
      refine ⟨List.isEmpty_iff.mp h1.1, hf, ?_⟩
      simpa [strTruthy] using h2
    · rw [if_neg hc] at hf
      exact absurd hf (by simp)
  · rintro ⟨it, hit, hcodes, hname, hne⟩
    refine ⟨it, hit, ?_⟩
    have hcond : ((codes_from_item it).isEmpty && strTruthy it.name) = true := by
      rw [hcodes, hname]
      simp [strTruthy, hne]
    rw [if_pos hcond]
    exact hname

/-- Resolution never changes the number of history entries. -/
theorem resolve_step_length (resolve : List String → String → Option String)
    (hist : List DrugItem) :
    (resolve_step resolve hist).length = hist.length := by
  unfold resolve_step
  split
  · rfl
  · exact List.length_map _ _

/-- An entry whose name is absent from the resolution result (or when no
query is issued) is returned unchanged. -/
theorem resolve_step_get_unchanged (resolve : List String → String → Option String)
    (hist : List DrugItem) (i : Nat) (it : DrugItem)
    (hget : hist.get? i = some it)
    (hmiss : ∀ n, it.name = some n →
      names_to_resolve hist = [] ∨ resolve (names_to_resolve hist) n = none) :
    (resolve_step resolve hist).get? i = some it := by
  by_cases hns : (names_to_resolve hist).isEmpty = true
  · unfold resolve_step
    rw [if_pos hns]
    exact hget
  · unfold resolve_step
    rw [if_neg hns, List.get?_map, hget]
    cases hname : it.name with
    | none => simp [hname]
    | some n =>
      rcases hmiss n hname with h0 | h0
      · exact absurd (List.isEmpty_iff.mpr h0) hns
      · simp [hname, h0]

/-- An entry whose name is a key of the resolution result has its
substance code overwritten — whether or not it already carried codes. -/
theorem resolve_step_get_set (resolve : List String → String → Option String)
    (hist : List DrugItem) (i : Nat) (it : DrugItem) (n sc : String)
    (hget : hist.get? i = some it) (hname : it.name = some n)
    (hne : names_to_resolve hist ≠ [])
    (hres : resolve (names_to_resolve hist) n = some sc) :
    (resolve_step resolve hist).get? i = some { it with subs_code := some sc } := by
  have hns : ¬(names_to_resolve hist).isEmpty = true := by
    simpa [List.isEmpty_iff] using hne
  unfold resolve_step
  rw [if_neg hns, List.get?_map, hget]
  simp [hname, hres]

/-- C1 (amended): the Name Resolver touches only the historical list — the
query batch holds exactly the names of historical entries lacking any
extracted code and carrying a non-empty name; every historical entry whose
name is a key of the resolution result has its substance code overwritten
(even an entry that already had a resolvable code), entries whose name is
absent stay unchanged with no error, and current-list entries are never
modified. -/
theorem C1_name_resolution (resolve : List String → String → Option String)
    (payload : DrugPayload) :
    (resolve_phase resolve payload).drug_currents = payload.drug_currents ∧
    (∀ n, n ∈ names_to_resolve payload.drug_histories ↔
      ∃ it ∈ payload.drug_histories,
        codes_from_item it = [] ∧ it.name = some n ∧ n ≠ "") ∧
    (resolve_phase resolve payload).drug_histories.length
        = payload.drug_histories.length ∧
    (∀ i it, payload.drug_histories.get? i = some it →
      (∀ n, it.name = some n →
        names_to_resolve payload.drug_histories = [] ∨
          resolve (names_to_resolve payload.drug_histories) n = none) →
      (resolve_phase resolve payload).drug_histories.get? i = some it) ∧
    (∀ i it n sc, payload.drug_histories.get? i = some it →
      it.name = some n →
      names_to_resolve payload.drug_histories ≠ [] →
      resolve (names_to_resolve payload.drug_histories) n = some sc →
      (resolve_phase resolve payload).drug_histories.get? i
        = some { it with subs_code := some sc }) := by
  refine ⟨rfl, fun n => names_to_resolve_mem _ n, resolve_step_length _ _, ?_, ?_⟩
  · intro i it hget hmiss
    exact resolve_step_get_unchanged resolve _ i it hget hmiss
  · intro i it n sc hget hname hne hres
    exact resolve_step_get_set resolve _ i it n sc hget hname hne hres

/-- A history entry that already carries a substance code but shares its
name with a codeless entry. -/
def e1C : DrugItem := ⟨some "x", some "S0", none, []⟩

/-- A codeless history entry named `"x"`. -/
def e2C : DrugItem := ⟨some "x", none, none, []⟩

/-- A resolution result mapping `"x"` to `"S"`. -/
def resolveC : List String → String → Option String :=
  fun _ n => if n == "x" then some "S" else none

/-- A payload whose current list holds a codeless resolvable-named entry
and whose history holds both entries above. -/
def payloadC : DrugPayload := ⟨[e2C], [e1C, e2C]⟩

/-- C1 as stated is false on the code: entry `e1C` already carries a
resolvable code yet is NOT left unchanged (its substance code is
overwritten), and the codeless current-list entry `e2C`, whose non-empty
name is a key of the resolution result, does NOT get its substance code set
— resolution only ever touches the historical list. -/
theorem C1_counterexample :
    codes_from_item e1C ≠ [] ∧
    (resolve_phase resolveC payloadC).drug_histories.get? 0 ≠ some e1C ∧
    codes_from_item e2C = [] ∧
    strTruthy e2C.name = true ∧
    resolveC (names_to_resolve payloadC.drug_histories) "x" = some "S" ∧
    (resolve_phase resolveC payloadC).drug_currents.get? 0 = some e2C := by
  decide

/-! External filtering (claim C3). -/

/-- A pair survives the External Filter iff no contributing entry of either
side is flagged external. -/
theorem filtered_pairs_mem (esm : String → Option Bool) (m : SubsIndex)
    (prs : List (String × String)) (p : String × String) (hp : p ∈ prs) :
    p ∈ filtered_pairs esm m prs ↔
      ∀ itm ∈ pair_items m p, item_external esm itm = false := by
  unfold filtered_pairs
  rw [List.mem_filter]
  constructor
  · rintro ⟨-, hb⟩
    rw [Bool.not_eq_true'] at hb
    exact fun itm hitm => by
      have := List.any_eq_false.mp hb itm hitm
      simpa using this
  · intro hall
    refine ⟨hp, ?_⟩
    rw [Bool.not_eq_true']
    exact List.any_eq_false.mpr fun itm hitm => by simp [hall itm hitm]

/-- C3: a candidate pair is removed by the External Filter iff some
contributing entry of either of its two substance ids carries a trade-unit
code whose external-status lookup is `true`; an entry's flag is `true`
exactly when its trade-unit code is non-empty and mapped to `true` by the
status result, so a code absent from the result defaults to not-external,
and a pair none of whose contributing entries carries a trade-unit code is
always kept. -/
theorem C3_external_filter (esm : String → Option Bool) (m : SubsIndex)
    (prs : List (String × String)) (p : String × String) (hp : p ∈ prs) :
    (p ∉ filtered_pairs esm m prs ↔
      ∃ itm ∈ pair_items m p, item_external esm itm = true) ∧
    (∀ itm : DrugItem, ∀ c, itm.tpu_code = some c →
      (item_external esm itm = true ↔ c ≠ "" ∧ esm c = some true)) ∧
    (∀ itm : DrugItem, ∀ c, itm.tpu_code = some c → esm c = none →
      item_external esm itm = false) ∧
    ((∀ itm ∈ pair_items m p, itm.tpu_code = none) →
      p ∈ filtered_pairs esm m prs) := by
  have hext : ∀ itm : DrugItem, ∀ c, itm.tpu_code = some c →
      (item_external esm itm = true ↔ c ≠ "" ∧ esm c = some true) := by
    intro itm c hc
    unfold item_external
    rw [hc]
    by_cases hce : c = ""
    · subst hce
      simp
    · simp only [beq_iff_eq, if_neg hce, ne_eq, hce, not_false_iff, true_and]
      cases he : esm c with
      | none => simp
      | some b => cases b <;> simp
  refine ⟨?_, hext, ?_, ?_⟩
  · rw [filtered_pairs_mem esm m prs p hp]
    constructor
    · intro hnall
      by_contra hno
      push_neg at hno
      exact hnall fun itm hitm => by
        have := hno itm hitm
        cases hb : item_external esm itm
        · rfl
        · exact absurd hb this
    · rintro ⟨itm, hitm, hflag⟩ hall
      rw [hall itm hitm] at hflag
      exact absurd hflag (by decide)
  · intro itm c hc hn
    unfold item_external
    rw [hc]
    by_cases hce : c = ""
    · subst hce
      simp
    · simp [hce, hn]
  · intro hnone
    rw [filtered_pairs_mem esm m prs p hp]
    intro itm hitm
    unfold item_external
    rw [hnone itm hitm]

/-- A status result flagging the trade-unit code `"X"` external. -/
def esmC : String → Option Bool := fun c => if c == "X" then some true else none

/-- An entry carrying the externally flagged trade-unit code `"X"`. -/
def itemXC : DrugItem := ⟨none, none, some "X", []⟩

/-- A two-substance index where side `"sB"` is contributed by the external
entry. -/
def idxC : SubsIndex := [("sA", [itemW]), ("sB", [itemXC])]

/-- The single candidate pair over `idxC`. -/
def prsC : List (String × String) := [("sA", "sB")]

/-- Instance of `C3_external_filter`: the pair over the externally flagged
entry is removed. -/
theorem C3_external_filter_witness :
    ("sA", "sB") ∈ prsC ∧
    ((("sA", "sB") ∉ filtered_pairs esmC idxC prsC ↔
      ∃ itm ∈ pair_items idxC ("sA", "sB"), item_external esmC itm = true) ∧
    (∀ itm : DrugItem, ∀ c, itm.tpu_code = some c →
      (item_external esmC itm = true ↔ c ≠ "" ∧ esmC c = some true)) ∧
    (∀ itm : DrugItem, ∀ c, itm.tpu_code = some c → esmC c = none →
      item_external esmC itm = false) ∧
    ((∀ itm ∈ pair_items idxC ("sA", "sB"), itm.tpu_code = none) →
      ("sA", "sB") ∈ filtered_pairs esmC idxC prsC)) :=
  ⟨by decide, C3_external_filter esmC idxC prsC ("sA", "sB") (by decide)⟩

/-! The substance index: lookup and key lemmas (claims C5, C6, C7). -/

/-- The dict holds a key iff some stored pair carries it. -/
theorem any_key_iff (m : SubsIndex) (sid : String) :
    (m.any fun p => p.1 == sid) = true ↔ sid ∈ index_keys m := by
  rw [List.any_eq_true]
  unfold index_keys
  constructor
  · rintro ⟨p, hp, hps⟩
    have hps2 : p.1 = sid := by
      have h1 : (p.1 == sid) = true := hps
      exact beq_iff_eq.mp h1
    exact hps2 ▸ List.mem_map_of_mem Prod.fst hp
  · intro h
    rcases List.mem_map.mp h with ⟨p, hp, hps⟩
    exact ⟨p, hp, by rw [beq_iff_eq]; exact hps⟩

/-- Effect of one `setdefault(…).append(…)` on every lookup: the touched
key gains the item at the end of its list, every other key is untouched. -/
theorem lookup_index_setdefault (m : SubsIndex) (sid : String) (itm : DrugItem)
    (sid' : String) :
    lookup_index (setdefault_append m sid itm) sid'
      = if sid' = sid then lookup_index m sid ++ [itm] else lookup_index m sid' := by
  unfold setdefault_append
  by_cases hany : (m.any fun p => p.1 == sid) = true
  · rw [if_pos hany]
    unfold lookup_index
    rw [List.find?_map]
    have hcomp : ((fun p : String × List DrugItem => p.1 == sid') ∘
        fun p => if p.1 == sid then (p.1, p.2 ++ [itm]) else p)
        = fun p : String × List DrugItem => p.1 == sid' := by
      funext p
      simp only [Function.comp]
      split <;> rfl
    rw [hcomp]
    by_cases hss : sid' = sid
    · subst hss
      rw [if_pos rfl]
      rcases List.any_eq_true.mp hany with ⟨q, hq, hqsid⟩
      cases hfind : m.find? fun p : String × List DrugItem => p.1 == sid' with
      | none =>
        rw [List.find?_eq_none] at hfind
        exact absurd hqsid (hfind q hq)
      | some q0 =>
        have hq0p := List.find?_some hfind
        have hq0 : (q0.1 == sid') = true := hq0p
        simp only [Option.map_some', Option.getD_some]
        rw [if_pos hq0]
    · rw [if_neg hss]
      cases hfind : m.find? fun p : String × List DrugItem => p.1 == sid' with
      | none => rfl
      | some q0 =>
        have hq0p := List.find?_some hfind
        have hq0 : (q0.1 == sid') = true := hq0p
        have hq0s : ¬(q0.1 == sid) = true := by
          intro hb
          exact hss ((beq_iff_eq.mp hq0).symm.trans (beq_iff_eq.mp hb))
        simp only [Option.map_some', Option.getD_some]
        rw [if_neg hq0s]
  · rw [if_neg hany]
    unfold lookup_index
    rw [List.find?_append]
    by_cases hss : sid' = sid
    · subst hss
      have hnone : (m.find? fun p : String × List DrugItem => p.1 == sid') = none := by
        rw [List.find?_eq_none]
        intro q hq hmq
        exact hany (List.any_eq_true.mpr ⟨q, hq, hmq⟩)
      rw [if_pos rfl, hnone]
      simp [hnone, List.find?]
    · rw [if_neg hss]
      cases hfind : m.find? fun p : String × List DrugItem => p.1 == sid' with
      | some q0 => simp [hfind]
      | none =>
        have : (sid == sid') = false := by
          rw [beq_eq_false_iff_ne]
          exact fun hEq => hss hEq.symm
        simp [hfind, List.find?, this]

/-- Keys after one `setdefault`: unchanged when present, appended when
new. -/
theorem index_keys_setdefault (m : SubsIndex) (sid : String) (itm : DrugItem) :
    index_keys (setdefault_append m sid itm)
      = if (m.any fun p => p.1 == sid) = true then index_keys m
        else index_keys m ++ [sid] := by
  unfold setdefault_append
  by_cases hany : (m.any fun p => p.1 == sid) = true
  · rw [if_pos hany, if_pos hany]
    unfold index_keys
    rw [List.map_map]
    congr 1
    funext p
    simp only [Function.comp]
    split <;> rfl
  · rw [if_neg hany, if_neg hany]
    unfold index_keys
    rw [List.map_append]
    rfl

/-- Key membership after one `setdefault`. -/
theorem index_keys_setdefault_mem (m : SubsIndex) (sid : String) (itm : DrugItem)
    (sid' : String) :
    sid' ∈ index_keys (setdefault_append m sid itm) ↔
      sid' ∈ index_keys m ∨ sid' = sid := by
  rw [index_keys_setdefault]
  by_cases hany : (m.any fun p => p.1 == sid) = true
  · rw [if_pos hany]
    constructor
    · exact Or.inl
    · rintro (h | h)
      · exact h
      · subst h
        exact (any_key_iff m sid').mp hany
  · rw [if_neg hany]
    simp [List.mem_append]

/-- One `setdefault` keeps the key list duplicate-free. -/
theorem index_keys_setdefault_nodup (m : SubsIndex) (sid : String) (itm : DrugItem)
    (h : (index_keys m).Nodup) :
    (index_keys (setdefault_append m sid itm)).Nodup := by
  rw [index_keys_setdefault]
  by_cases hany : (m.any fun p => p.1 == sid) = true
  · rw [if_pos hany]
    exact h
  · rw [if_neg hany]
    rw [List.nodup_append]
    refine ⟨h, List.nodup_singleton sid, ?_⟩
    intro a ha hb
    rw [List.mem_singleton] at hb
    subst hb
    exact hany ((any_key_iff m a).mpr ha)

/-- Lookup membership through the inner fold appending one item under a
list of substance ids. -/
theorem lookup_index_fold_set (ws : List String) (m : SubsIndex) (itm : DrugItem)
    (sid : String) (x : DrugItem) :
    x ∈ lookup_index (ws.foldl (fun m s => setdefault_append m s itm) m) sid ↔
      x ∈ lookup_index m sid ∨ (sid ∈ ws ∧ x = itm) := by
  induction ws generalizing m with
  | nil => simp
  | cons w ws ih =>
    rw [List.foldl_cons, ih, lookup_index_setdefault]
    by_cases hsw : sid = w
    · subst hsw
      rw [if_pos rfl]
      simp only [List.mem_append, List.mem_singleton, List.mem_cons]
      tauto
    · rw [if_neg hsw]
      simp only [List.mem_cons]
      tauto

/-- Key membership through the inner fold. -/
theorem index_keys_fold_set (ws : List String) (m : SubsIndex) (itm : DrugItem)
    (sid : String) :
    sid ∈ index_keys (ws.foldl (fun m s => setdefault_append m s itm) m) ↔
      sid ∈ index_keys m ∨ sid ∈ ws := by
  induction ws generalizing m with
  | nil => simp
  | cons w ws ih =>
    rw [List.foldl_cons, ih, index_keys_setdefault_mem]
    simp only [List.mem_cons]
    tauto

/-- The inner fold keeps the key list duplicate-free. -/
theorem index_keys_fold_set_nodup (ws : List String) (m : SubsIndex) (itm : DrugItem)
    (h : (index_keys m).Nodup) :
    (index_keys (ws.foldl (fun m s => setdefault_append m s itm) m)).Nodup := by
  induction ws generalizing m with
  | nil => exact h
  | cons w ws ih =>
    rw [List.foldl_cons]
    exact ih _ (index_keys_setdefault_nodup m w itm h)

/-- Lookup membership through the outer fold over the entry lists. -/
theorem lookup_index_fold_items (dm : String → Option DetailRecord)
    (items : List DrugItem) (m : SubsIndex) (sid : String) (x : DrugItem) :
    x ∈ lookup_index (items.foldl (index_item dm) m) sid ↔
      x ∈ lookup_index m sid ∨ ∃ it ∈ items, x = it ∧ sid ∈ winning_subs dm it := by
  induction items generalizing m with
  | nil => simp
  | cons it items ih =>
    rw [List.foldl_cons, ih]
    unfold index_item
    rw [lookup_index_fold_set]
    simp only [List.mem_cons]
    constructor
    · rintro ((h | ⟨hw, hx⟩) | ⟨y, hy, hx, hw⟩)
      · exact Or.inl h
      · exact Or.inr ⟨it, Or.inl rfl, hx, hw⟩
      · exact Or.inr ⟨y, Or.inr hy, hx, hw⟩
    · rintro (h | ⟨y, hmem, hx, hw⟩)
      · exact Or.inl (Or.inl h)
      · rcases hmem with hEq | hy
        · subst hEq
          exact Or.inl (Or.inr ⟨hw, hx⟩)
        · exact Or.inr ⟨y, hy, hx, hw⟩

/-- Key membership through the outer fold. -/
theorem index_keys_fold_items (dm : String → Option DetailRecord)
    (items : List DrugItem) (m : SubsIndex) (sid : String) :
    sid ∈ index_keys (items.foldl (index_item dm) m) ↔
      sid ∈ index_keys m ∨ ∃ it ∈ items, sid ∈ winning_subs dm it := by
  induction items generalizing m with
  | nil => simp
  | cons it items ih =>
    rw [List.foldl_cons, ih]
    unfold index_item
    rw [index_keys_fold_set]
    simp only [List.mem_cons]
    constructor
    · rintro ((h | hw) | ⟨y, hy, hw⟩)
      · exact Or.inl h
      · exact Or.inr ⟨it, Or.inl rfl, hw⟩
      · exact Or.inr ⟨y, Or.inr hy, hw⟩
    · rintro (h | ⟨y, hmem, hw⟩)
      · exact Or.inl (Or.inl h)
      · rcases hmem with hEq | hy
        · subst hEq
          exact Or.inl (Or.inr hw)
        · exact Or.inr ⟨y, hy, hw⟩

/-- The outer fold keeps the key list duplicate-free. -/
theorem index_keys_fold_items_nodup (dm : String → Option DetailRecord)
    (items : List DrugItem) (m : SubsIndex) (h : (index_keys m).Nodup) :
    (index_keys (items.foldl (index_item dm) m)).Nodup := by
  induction items generalizing m with
  | nil => exact h
  | cons it items ih =>
    rw [List.foldl_cons]
    exact ih _ (index_keys_fold_set_nodup _ _ _ h)

/-- An entry appears under a substance id in `subs_to_items` iff it is one
of the processed entries and the id belongs to its winning code. -/
theorem subs_to_items_lookup_mem (dm : String → Option DetailRecord)
    (items : List DrugItem) (x : DrugItem) (sid : String) :
    x ∈ lookup_index (subs_to_items dm items) sid ↔
      x ∈ items ∧ sid ∈ winning_subs dm x := by
  unfold subs_to_items
  rw [lookup_index_fold_items]
  have hnil : lookup_index ([] : SubsIndex) sid = [] := rfl
  rw [hnil]
  simp only [List.not_mem_nil, false_or]
  constructor
  · rintro ⟨y, hy, hx, hw⟩
    subst hx
    exact ⟨hy, hw⟩
  · rintro ⟨hx, hw⟩
    exact ⟨x, hx, rfl, hw⟩

/-- A substance id is a key of `subs_to_items` iff some processed entry's
winning code contributes it. -/
theorem subs_to_items_keys_mem (dm : String → Option DetailRecord)
    (items : List DrugItem) (sid : String) :
    sid ∈ index_keys (subs_to_items dm items) ↔
      ∃ it ∈ items, sid ∈ winning_subs dm it := by
  unfold subs_to_items
  rw [index_keys_fold_items]
  simp [index_keys]

/-- The keys of `subs_to_items` are duplicate-free (Python dict keys). -/
theorem subs_to_items_keys_nodup (dm : String → Option DetailRecord)
    (items : List DrugItem) :
    (index_keys (subs_to_items dm items)).Nodup := by
  unfold subs_to_items
  exact index_keys_fold_items_nodup dm items [] List.nodup_nil

/-! The winning-code rule (claim C5). -/

/-- `findSome?` skips a prefix on which the selector yields nothing. -/
theorem findSome?_append_none {α β : Type} (f : α → Option β) (pre rest : List α)
    (h : ∀ a ∈ pre, f a = none) :
    (pre ++ rest).findSome? f = rest.findSome? f := by
  induction pre with
  | nil => rfl
  | cons a t ih =>
    rw [List.cons_append, List.findSome?_cons, h a (by simp)]
    exact ih fun a2 ha => h a2 (by simp [ha])

/-- An entry none of whose codes has a nonempty substance list wins
nothing. -/
theorem winning_subs_eq_nil (dm : String → Option DetailRecord) (it : DrugItem)
    (h : ∀ c ∈ codes_from_item it, subsOf dm c = []) :
    winning_subs dm it = [] := by
  unfold winning_subs
  have hnone : ((codes_from_item it).findSome? fun c =>
      if (subsOf dm c).isEmpty then none else some (subsOf dm c)) = none := by
    rw [List.findSome?_eq_none]
    intro c hc
    simp [h c hc]
  rw [hnone]
  rfl

/-- The first code with a nonempty substance list wins, and later codes
are never examined. -/
theorem winning_subs_first (dm : String → Option DetailRecord) (it : DrugItem)
    (pre : List String) (c : String) (post : List String)
    (hsplit : codes_from_item it = pre ++ c :: post)
    (hpre : ∀ c2 ∈ pre, subsOf dm c2 = []) (hc : subsOf dm c ≠ []) :
    winning_subs dm it = subsOf dm c := by
  unfold winning_subs
  rw [hsplit]
  rw [findSome?_append_none _ pre _ fun c2 hc2 => by simp [hpre c2 hc2]]
  rw [List.findSome?_cons]
  have hne : (subsOf dm c).isEmpty = false := by
    cases hl : subsOf dm c with
    | nil => exact absurd hl hc
    | cons a t => rfl
  simp [hne]

/-- C5: building the substance index, each entry is examined along its
extracted codes in order; the FIRST code whose detail record carries a
nonempty substance-code list contributes the entry under every substance
id of that list and stops the scan (no union across later codes); an entry
with no such code contributes nothing. -/
theorem C5_substance_indexer (dm : String → Option DetailRecord)
    (items : List DrugItem) (itm : DrugItem) (sid : String) :
    (itm ∈ lookup_index (subs_to_items dm items) sid ↔
      itm ∈ items ∧ sid ∈ winning_subs dm itm) ∧
    ((∀ c ∈ codes_from_item itm, subsOf dm c = []) → winning_subs dm itm = []) ∧
    (∀ pre c post, codes_from_item itm = pre ++ c :: post →
      (∀ c2 ∈ pre, subsOf dm c2 = []) → subsOf dm c ≠ [] →
      winning_subs dm itm = subsOf dm c) :=
  ⟨subs_to_items_lookup_mem dm items itm sid,
    winning_subs_eq_nil dm itm,
    fun pre c post hsplit hpre hc => winning_subs_first dm itm pre c post hsplit hpre hc⟩

/-! Pair generation (claims C6, C7). -/

/-- Both components of an emitted combination come from the input list. -/
theorem combos_mem_of_mem (l : List String) (a b : String)
    (h : (a, b) ∈ combos l) : a ∈ l ∧ b ∈ l := by
  induction l with
  | nil => cases h
  | cons x xs ih =>
    unfold combos at h
    rw [List.mem_append] at h
    rcases h with h | h
    · rcases List.mem_map.mp h with ⟨y, hy, hEq⟩
      cases hEq
      exact ⟨by simp, by simp [hy]⟩
    · rcases ih h with ⟨ha, hb⟩
      exact ⟨by simp [ha], by simp [hb]⟩

/-- On a strictly increasing list, the emitted combinations are exactly
the ordered pairs of members. -/
theorem combos_mem_iff (l : List String) (hl : l.Pairwise (· < ·)) (a b : String) :
    (a, b) ∈ combos l ↔ a ∈ l ∧ b ∈ l ∧ a < b := by
  induction l with
  | nil => simp [combos]
  | cons x xs ih =>
    rw [List.pairwise_cons] at hl
    unfold combos
    rw [List.mem_append]
    constructor
    · rintro (h | h)
      · rcases List.mem_map.mp h with ⟨y, hy, hEq⟩
        injection hEq with h1 h2
        subst h1
        subst h2
        exact ⟨by simp, by simp [hy], hl.1 _ hy⟩
      · rcases (ih hl.2).mp h with ⟨ha, hb, hab⟩
        exact ⟨by simp [ha], by simp [hb], hab⟩
    · rintro ⟨ha, hb, hab⟩
      rw [List.mem_cons] at ha hb
      rcases ha with ha | ha
      · rcases hb with hb | hb
        · rw [ha, hb] at hab
          exact absurd hab (lt_irrefl x)
        · refine Or.inl (List.mem_map.mpr ⟨b, hb, ?_⟩)
          rw [ha]
      · rcases hb with hb | hb
        · rw [hb] at hab
          exact absurd (lt_trans hab (hl.1 a ha)) (lt_irrefl a)
        · exact Or.inr ((ih hl.2).mpr ⟨ha, hb, hab⟩)

/-- On a strictly increasing list, the emitted combinations are
duplicate-free. -/
theorem combos_nodup (l : List String) (hl : l.Pairwise (· < ·)) :
    (combos l).Nodup := by
  induction l with
  | nil => exact List.nodup_nil
  | cons x xs ih =>
    rw [List.pairwise_cons] at hl
    unfold combos
    rw [List.nodup_append]
    have hxs : xs.Nodup := hl.2.imp fun h => ne_of_lt h
    refine ⟨List.Nodup.map (fun y1 y2 h => (Prod.mk.injEq x y1 x y2 ▸ congrArg id h : (x, y1) = (x, y2)) |> fun hp => (Prod.mk.inj hp).2) hxs, ih hl.2, ?_⟩
    intro p hp hq
    rcases List.mem_map.mp hp with ⟨y, hy, hEq⟩
    subst hEq
    rcases combos_mem_of_mem xs x y hq with ⟨hx, -⟩
    exact absurd rfl (ne_of_gt (hl.1 x hx))

/-- Lexicographic order on ordered pairs of substance ids. -/
def pairLex (p q : String × String) : Prop :=
  p.1 < q.1 ∨ (p.1 = q.1 ∧ p.2 < q.2)

/-- On a strictly increasing list, the combinations come out in strictly
increasing lexicographic order. -/
theorem combos_pairwise_lex (l : List String) (hl : l.Pairwise (· < ·)) :
    (combos l).Pairwise pairLex := by
  induction l with
  | nil => exact List.Pairwise.nil
  | cons x xs ih =>
    rw [List.pairwise_cons] at hl
    unfold combos
    rw [List.pairwise_append]
    refine ⟨?_, ih hl.2, ?_⟩
    · rw [List.pairwise_map]
      exact hl.2.imp fun h => Or.inr ⟨rfl, h⟩
    · intro p hp q hq
      rcases List.mem_map.mp hp with ⟨y, hy, hEq⟩
      subst hEq
      rcases combos_mem_of_mem xs q.1 q.2 hq with ⟨ha, -⟩
      exact Or.inl (hl.1 q.1 ha)

/-- The sorted key list is a permutation of the keys with the same
membership. -/
theorem unique_sids_perm (m : SubsIndex) : (unique_sids m).Perm (index_keys m) :=
  List.mergeSort_perm (index_keys m) _

/-- The sorted key list is strictly increasing when the keys are
duplicate-free. -/
theorem unique_sids_pairwise_lt (m : SubsIndex) (h : (index_keys m).Nodup) :
    (unique_sids m).Pairwise (· < ·) := by
  have hperm := unique_sids_perm m
  have hnd : (unique_sids m).Nodup := hperm.nodup_iff.mpr h
  have hle : (unique_sids m).Pairwise (· ≤ ·) := by
    have hs := @List.sorted_mergeSort String (fun a b : String => decide (a ≤ b))
      (fun a b c hab hbc =>
        decide_eq_true (le_trans (of_decide_eq_true hab) (of_decide_eq_true hbc)))
      (fun a b => by
        show (decide (a ≤ b) || decide (b ≤ a)) = true
        rcases le_total a b with h1 | h1
        · rw [decide_eq_true h1]
          exact Bool.true_or _
        · rw [decide_eq_true h1]
          exact Bool.or_true _)
      (index_keys m)
    exact hs.imp fun hab => of_decide_eq_true hab
  exact (hle.and hnd).imp fun hab => lt_of_le_of_ne hab.1 hab.2

/-- C6: the pre-filter pair list is exactly the 2-combinations of the
sorted duplicate-free key list of the substance index — a pair `(a, b)`
appears iff both ids are index keys (each with at least one contributing
entry) and `a < b`; no self-pair appears, each unordered pair appears
exactly once, and the emission order is strictly increasing in the
lexicographic order induced by sorting the identifiers. -/
theorem C6_pair_generation (dm : String → Option DetailRecord) (items : List DrugItem) :
    (∀ a b, (a, b) ∈ gen_pairs (subs_to_items dm items) ↔
      (a ∈ index_keys (subs_to_items dm items) ∧
        b ∈ index_keys (subs_to_items dm items) ∧ a < b)) ∧
    (∀ a, a ∈ index_keys (subs_to_items dm items) ↔
      lookup_index (subs_to_items dm items) a ≠ []) ∧
    (∀ a, (a, a) ∉ gen_pairs (subs_to_items dm items)) ∧
    (gen_pairs (subs_to_items dm items)).Nodup ∧
    (∀ a b, a ≠ b →
      ((a, b) ∈ gen_pairs (subs_to_items dm items) ∨
          (b, a) ∈ gen_pairs (subs_to_items dm items) ↔
        a ∈ index_keys (subs_to_items dm items) ∧
          b ∈ index_keys (subs_to_items dm items))) ∧
    (∀ a b, ¬((a, b) ∈ gen_pairs (subs_to_items dm items) ∧
      (b, a) ∈ gen_pairs (subs_to_items dm items))) ∧
    (gen_pairs (subs_to_items dm items)).Pairwise pairLex := by
  have hnd := subs_to_items_keys_nodup dm items
  have hplt := unique_sids_pairwise_lt (subs_to_items dm items) hnd
  have hperm := unique_sids_perm (subs_to_items dm items)
  have hmem : ∀ a b, (a, b) ∈ gen_pairs (subs_to_items dm items) ↔
      (a ∈ index_keys (subs_to_items dm items) ∧
        b ∈ index_keys (subs_to_items dm items) ∧ a < b) := by
    intro a b
    unfold gen_pairs
    rw [combos_mem_iff _ hplt, hperm.mem_iff, hperm.mem_iff]
  refine ⟨hmem, ?_, ?_, combos_nodup _ hplt, ?_, ?_, combos_pairwise_lex _ hplt⟩
  · intro a
    constructor
    · intro ha
      rcases (subs_to_items_keys_mem dm items a).mp ha with ⟨it, hit, hw⟩
      intro hempty
      have hmem2 : it ∈ lookup_index (subs_to_items dm items) a :=
        (subs_to_items_lookup_mem dm items it a).mpr ⟨hit, hw⟩
      rw [hempty] at hmem2
      exact List.not_mem_nil it hmem2
    · intro hne
      rcases List.exists_mem_of_ne_nil _ hne with ⟨it, hit⟩
      rcases (subs_to_items_lookup_mem dm items it a).mp hit with ⟨h1, h2⟩
      exact (subs_to_items_keys_mem dm items a).mpr ⟨it, h1, h2⟩
  · intro a ha
    exact absurd ((hmem a a).mp ha).2.2 (lt_irrefl a)
  · intro a b hab
    constructor
    · rintro (hin | hin)
      · rcases (hmem a b).mp hin with ⟨ha, hb, -⟩
        exact ⟨ha, hb⟩
      · rcases (hmem b a).mp hin with ⟨hb, ha, -⟩
        exact ⟨ha, hb⟩
    · rintro ⟨ha, hb⟩
      rcases lt_or_gt_of_ne hab with hlt | hgt
      · exact Or.inl ((hmem a b).mpr ⟨ha, hb, hlt⟩)
      · exact Or.inr ((hmem b a).mpr ⟨hb, ha, hgt⟩)
  · rintro a b ⟨h1, h2⟩
    exact absurd (lt_trans ((hmem a b).mp h1).2.2 ((hmem b a).mp h2).2.2)
      (lt_irrefl a)

/-- C7: with the resolution and detail-lookup results fixed, permuting the
entries inside the current list and inside the historical list yields the
very same candidate pair list (hence the same unordered set). -/
theorem C7_order_independence (dm : String → Option DetailRecord)
    (c1 c2 h1 h2 : List DrugItem) (hc : c1.Perm c2) (hh : h1.Perm h2) :
    gen_pairs (subs_to_items dm (c1 ++ h1))
      = gen_pairs (subs_to_items dm (c2 ++ h2)) := by
  have hperm : (c1 ++ h1).Perm (c2 ++ h2) := hc.append hh
  have hkeys : (index_keys (subs_to_items dm (c1 ++ h1))).Perm
      (index_keys (subs_to_items dm (c2 ++ h2))) := by
    rw [List.perm_ext_iff_of_nodup (subs_to_items_keys_nodup _ _)
      (subs_to_items_keys_nodup _ _)]
    intro sid
    rw [subs_to_items_keys_mem, subs_to_items_keys_mem]
    constructor
    · rintro ⟨it, hit, hw⟩
      exact ⟨it, hperm.mem_iff.mp hit, hw⟩
    · rintro ⟨it, hit, hw⟩
      exact ⟨it, hperm.mem_iff.mpr hit, hw⟩
  have hsids : unique_sids (subs_to_items dm (c1 ++ h1))
      = unique_sids (subs_to_items dm (c2 ++ h2)) := by
    have hs1 : List.Sorted (· ≤ ·) (unique_sids (subs_to_items dm (c1 ++ h1))) :=
      (unique_sids_pairwise_lt _ (subs_to_items_keys_nodup _ _)).imp
        fun hab => le_of_lt hab
    have hs2 : List.Sorted (· ≤ ·) (unique_sids (subs_to_items dm (c2 ++ h2))) :=
      (unique_sids_pairwise_lt _ (subs_to_items_keys_nodup _ _)).imp
        fun hab => le_of_lt hab
    exact List.eq_of_perm_of_sorted
      (((unique_sids_perm _).trans hkeys).trans (unique_sids_perm _).symm) hs1 hs2
  unfold gen_pairs
  rw [hsids]

/-- A concrete detail map for the order-independence witness. -/
def dmW : String → Option DetailRecord :=
  fun c => if c == "A" then some ⟨["sA", "sB"], []⟩ else none

/-- A second concrete entry, with an unmapped trade-unit code. -/
def itemW2 : DrugItem := ⟨some "ibu", none, some "B", []⟩

/-- Instance of `C7_order_independence`: swapping the two current entries
leaves the candidate pair list unchanged. -/
theorem C7_order_independence_witness :
    (List.Perm [itemW, itemW2] [itemW2, itemW] ∧
      List.Perm ([] : List DrugItem) []) ∧
    gen_pairs (subs_to_items dmW ([itemW, itemW2] ++ []))
      = gen_pairs (subs_to_items dmW ([itemW2, itemW] ++ [])) :=
  ⟨⟨by decide, by decide⟩,
    C7_order_independence dmW [itemW, itemW2] [itemW2, itemW] [] []
      (by decide) (by decide)⟩

/-! The contrast assembler (claim C8). -/

/-- Row count contributed by one pair: zero without a record, the full
cross-join size with one. -/
theorem pair_row_data_length (records : List InteractionRecord) (m : SubsIndex)
    (p : String × String) :
    (pair_row_data records m p).length
      = match lookup_pair records p.1 p.2 with
        | none => 0
        | some _ => (lookup_index m p.1).length * (lookup_index m p.2).length := by
  unfold pair_row_data
  cases h : lookup_pair records p.1 p.2 with
  | none => rfl
  | some rec =>
    rw [List.length_flatMap]
    have h2 : (List.length ∘ fun a : DrugItem =>
        (lookup_index m p.2).map fun b => (rec, a, b))
        = fun _ : DrugItem => (lookup_index m p.2).length := by
      funext a
      exact List.length_map _ _
    rw [h2, List.map_const', List.sum_replicate, smul_eq_mul]

/-- C8: a surviving pair without a matching record contributes zero rows
and raises nothing; a pair with a record contributes exactly
`|entries(s1)| × |entries(s2)|` cross-joined rows; globally the assembled
list has one row per combination, and every assembled row carries the
discriminator 0, per-role coding fields extracted from its two
contributing entries, the interaction metadata copied verbatim from its
record, and single-element substance display lists taken from the record's
own recorded identifiers and names. -/
theorem C8_contrast_assembler (records : List InteractionRecord) (m : SubsIndex)
    (fps : List (String × String)) (p : String × String) :
    (lookup_pair records p.1 p.2 = none → pair_row_data records m p = []) ∧
    (∀ rec, lookup_pair records p.1 p.2 = some rec →
      (pair_row_data records m p).length
        = (lookup_index m p.1).length * (lookup_index m p.2).length) ∧
    (assemble records m fps).length
      = (fps.map fun q => (pair_row_data records m q).length).sum ∧
    (∀ row ∈ assemble records m fps,
      row.contrast_type = 0 ∧
      ∃ rec a b,
        (∃ q ∈ fps, lookup_pair records q.1 q.2 = some rec ∧
          a ∈ lookup_index m q.1 ∧ b ∈ lookup_index m q.2) ∧
        row.input_fields = fill_codes a ∧
        row.contrast_fields = fill_codes b ∧
        row.interaction_detail_en = rec.interaction_detail_en ∧
        row.interaction_detail_th = rec.interaction_detail_th ∧
        row.onset = rec.onset ∧
        row.severity = rec.severity ∧
        row.documentation = rec.documentation ∧
        row.significance = rec.significance ∧
        row.management = rec.management ∧
        row.discussion = rec.discussion ∧
        row.reference = rec.reference ∧
        row.input_substances = [(rec.sub1_id, rec.sub1_name)] ∧
        row.contrast_substances = [(rec.sub2_id, rec.sub2_name)]) := by
  refine ⟨?_, ?_, ?_, ?_⟩
  · intro h
    unfold pair_row_data
    rw [h]
  · intro rec h
    have hl := pair_row_data_length records m p
    rw [h] at hl
    exact hl
  · unfold assemble
    rw [List.length_map, List.enum_length, List.length_flatMap]
    rfl
  · intro row hrow
    unfold assemble at hrow
    rcases List.mem_map.mp hrow with ⟨e, he, hEq⟩
    have hd := List.mem_enum he
    have hdm : e.2 ∈ fps.flatMap (pair_row_data records m) := by
      rw [hd.2]
      exact List.getElem_mem hd.1
    rcases List.mem_flatMap.mp hdm with ⟨q, hq, hdq⟩
    unfold pair_row_data at hdq
    cases hrec : lookup_pair records q.1 q.2 with
    | none =>
      rw [hrec] at hdq
      exact absurd hdq (List.not_mem_nil _)
    | some rec =>
      rw [hrec] at hdq
      rcases List.mem_flatMap.mp hdq with ⟨a, ha, hd2⟩
      rcases List.mem_map.mp hd2 with ⟨b, hb, hEq2⟩
      subst hEq
      rw [← hEq2]
      exact ⟨rfl, rec, a, b, ⟨q, hq, hrec, ha, hb⟩,
        rfl, rfl, rfl, rfl, rfl, rfl, rfl, rfl, rfl, rfl, rfl, rfl, rfl⟩
